import Mathlib

set_option autoImplicit false

/-!
Verification of the rawtools conversion pipeline (`rawtools/convert.py` and
`rawtools/nsihdr.py`) against its natural-language specification.

The embedding models sample values exactly, as rationals: the Python code
performs its arithmetic in IEEE doubles via numpy, but every claim under
study is a statement about the mathematical rescaling pipeline, so the
shallow embedding uses exact arithmetic.  Machine-integer casts
(`astype('uint8'/'uint16')`, i.e. C truncation toward zero followed by a
wrap modulo the type width) are modelled explicitly on rationals.

File paths, file handles and the on-disk state touched by `convert` and
`process` are modelled by explicit option-valued file contents threaded
through the functions.
-/

namespace Rawtools

/-- Sample encodings supported by the pipeline (`uint8`, `uint16`, `float32`
in the Python source). -/
inductive Encoding
  | uint8
  | uint16
  | float32
deriving DecidableEq

/-- Byte width of one sample (`np.dtype(...).itemsize`). -/
def Encoding.itemsize : Encoding → ℕ
  | .uint8 => 1
  | .uint16 => 2
  | .float32 => 4

/-- Largest finite value of a 32-bit IEEE float, `np.finfo('float32').max`,
exactly `(2 - 2 ^ (-23)) * 2 ^ 127`.  `np.finfo('float32').min` is its
negation. -/
def FLOAT32_MAX : ℚ := 340282346638528859811704183484516925440

/-- `scale(x, a, b, c, d)` from `rawtools/convert.py`: map `x` from the
input range `[a, b]` to the output range `[c, d]`. -/
def scale (x a b c d : ℚ) : ℚ :=
  (x - a) / (b - a) * (d - c) + c

/-- Truncation of a rational toward zero, the semantics of a C float-to-int
cast as performed by numpy's `astype` on in-range values. -/
def ratTrunc (q : ℚ) : ℤ :=
  if 0 ≤ q then ⌊q⌋ else -⌊-q⌋

/-- Result of `astype(fmt)` on one scaled sample: integer targets truncate
toward zero and wrap modulo the type width; the float target keeps the
value (precision narrowing is not modelled, arithmetic being exact). -/
def castTo : Encoding → ℚ → ℚ
  | .uint8, q => ((ratTrunc q % 256 : ℤ) : ℚ)
  | .uint16, q => ((ratTrunc q % 65536 : ℤ) : ℚ)
  | .float32, q => q

/-- Minimum of the nonempty sample list `x :: xs`, i.e. numpy's
`chunk.min()`. -/
def listMin (x : ℚ) (xs : List ℚ) : ℚ := xs.foldl min x

/-- Maximum of the nonempty sample list `x :: xs`, i.e. numpy's
`chunk.max()`. -/
def listMax (x : ℚ) (xs : List ℚ) : ℚ := xs.foldl max x

/-- Minimum of a sample list (`0` on the empty list, which the claims never
use). -/
def minOf : List ℚ → ℚ
  | [] => 0
  | x :: xs => listMin x xs

/-- Maximum of a sample list (`0` on the empty list, which the claims never
use). -/
def maxOf : List ℚ → ℚ
  | [] => 0
  | x :: xs => listMax x xs

/-- The chunked scan loop of `find_float_range`: repeatedly take a chunk of
`n` samples (the buffer, `buffer_size` bytes being `4 * n`), compare its
local minimum and maximum against the running values, and continue on the
rest of the stream.  A chunk size of `0` models `ifp.read(0) = b''`: the
loop body never runs and the accumulators are returned unchanged. -/
def scanChunks (n : ℕ) (l : List ℚ) (mn mx : ℚ) : ℚ × ℚ :=
  match l with
  | [] => (mn, mx)
  | x :: xs =>
    if n = 0 then (mn, mx)
    else
      scanChunks n (xs.drop (n - 1))
        (if listMin x (xs.take (n - 1)) < mn then listMin x (xs.take (n - 1)) else mn)
        (if mx < listMax x (xs.take (n - 1)) then listMax x (xs.take (n - 1)) else mx)
termination_by l.length
decreasing_by
  simp only [List.length_drop, List.length_cons]
  omega

/-- `find_float_range` from `rawtools/convert.py`: stream the samples in
chunks of `n` samples, starting the running minimum at
`np.finfo('float32').max` and the running maximum at
`np.finfo('float32').min`, and return `(minimum, maximum)`. -/
def find_float_range (l : List ℚ) (n : ℕ) : ℚ × ℚ :=
  scanChunks n l FLOAT32_MAX (-FLOAT32_MAX)

/-- The default buffer size chosen by `find_float_range` when none is
supplied: `os.path.getsize(fp) // 100` bytes. -/
def defaultBufferSize (size : ℕ) : ℕ := size / 100

/-- The conversion write loop of `convert`: read a chunk of `n` samples,
apply `f` to every sample (`scale ... .astype(...)`), append the encoded
chunk to the output file (`sdf.tofile(ofp)`), repeat until the stream is
exhausted.  A chunk size of `0` models `ifp.read(0) = b''`. -/
def chunkMap (f : ℚ → ℚ) (n : ℕ) (l : List ℚ) : List ℚ :=
  match l with
  | [] => []
  | x :: xs =>
    if n = 0 then []
    else ((x :: xs.take (n - 1)).map f) ++ chunkMap f n (xs.drop (n - 1))
termination_by l.length
decreasing_by
  simp only [List.length_drop, List.length_cons]
  omega

/-- Volume Descriptor as read from the companion DAT file.  `dat.read` and
`determine_bit_depth` live in the `rawtools.dat` module (not under the
sources at hand); per the spec they are external collaborators, so
`convert` below receives the parsed descriptor and the inferred current
encoding as inputs. -/
structure Descriptor where
  xdim : ℕ
  ydim : ℕ
  zdim : ℕ
  x_thickness : ℚ
  y_thickness : ℚ
  z_thickness : ℚ
  model : String
deriving DecidableEq

/-- Modelled from the spec: the argument record passed to the external DAT
metadata writer `dat.write(fp, dimensions, thickness, dtype, model)`
(spec §6: `write(path, dimensions, thickness, sample_type, object_model)`,
overwrites unconditionally).  The writer itself is outside the sources at
hand, so the new DAT file is modelled as exactly this record. -/
structure DatFile where
  dimensions : ℕ × ℕ × ℕ
  thickness : ℚ × ℚ × ℚ
  dtype : Encoding
  model : String
deriving DecidableEq

/-- Outcome of one `convert` call: the two early returns, or the written
output volume together with its new DAT metadata. -/
inductive ConvertResult
  | skippedSameFormat
  | skippedExists
  | written (volume : List ℚ) (datFile : DatFile)
deriving DecidableEq

/-- The input range chosen by `convert`: the full `np.iinfo` range for the
unsigned integer encodings, and the scanned range of the actual data for
`float32` (`find_float_range` with one slice of samples per buffer). -/
def inputRange (bit_depth : Encoding) (data : List ℚ) (n : ℕ) : ℚ × ℚ :=
  match bit_depth with
  | .uint8 => (0, 255)
  | .uint16 => (0, 65535)
  | .float32 => find_float_range data n

/-- The output range chosen by `convert`: the full `np.iinfo` range for the
unsigned integer encodings and the full finite `np.finfo` range for
`float32`. -/
def naturalRange : Encoding → ℚ × ℚ
  | .uint8 => (0, 255)
  | .uint16 => (0, 65535)
  | .float32 => (-FLOAT32_MAX, FLOAT32_MAX)

/-- `convert` from `rawtools/convert.py`.  `d` is the descriptor read from
the DAT file, `bit_depth` the current encoding inferred by the external
`determine_bit_depth` collaborator, `file_format` the requested target
encoding, `outputExists` whether the computed output path already exists,
and `data` the sample stream of the source volume.  The write loop strides
one z-slice at a time: `buffer_size = xdim * ydim * itemsize(bit_depth)`
bytes, i.e. `xdim * ydim` samples. -/
def convert (d : Descriptor) (bit_depth file_format : Encoding)
    (outputExists : Bool) (data : List ℚ) : ConvertResult :=
  if file_format = bit_depth then .skippedSameFormat
  else if outputExists then .skippedExists
  else
    .written
      (chunkMap
        (fun v => castTo file_format
          (scale v (inputRange bit_depth data (d.xdim * d.ydim)).1
            (inputRange bit_depth data (d.xdim * d.ydim)).2
            (naturalRange file_format).1 (naturalRange file_format).2))
        (d.xdim * d.ydim) data)
      ⟨(d.xdim, d.ydim, d.zdim), (d.x_thickness, d.y_thickness, d.z_thickness),
        file_format, d.model⟩

/-- `convert` acting on the on-disk state it may touch: the output volume
file and the output DAT file, each `none` when absent.  The real code tests
`os.path.exists(op)`, modelled by `rawOut.isSome`; only the `.written`
outcome changes anything on disk. -/
def convertFS (d : Descriptor) (bit_depth file_format : Encoding)
    (data : List ℚ) (rawOut : Option (List ℚ)) (datOut : Option DatFile) :
    Option (List ℚ) × Option DatFile :=
  match convert d bit_depth file_format rawOut.isSome data with
  | .written vol df => (some vol, some df)
  | _ => (rawOut, datOut)

/-- Outcome of one `process` call in `rawtools/nsihdr.py`, carrying the
final content of the output volume file (`none` when the file does not
exist).  `aborted` is the `sys.exit(0)` path, `typeError` the exception
raised inside `scale` when the target bounds are `None`, and `completed`
the normal exit of the append loop. -/
inductive AssembleOutcome
  | aborted (raw : Option (List ℚ))
  | typeError (raw : Option (List ℚ))
  | completed (raw : Option (List ℚ))
deriving DecidableEq

/-- The append loop of `process`: for each slice file in order, rescale its
samples from `[ilb, iub]` to the target bounds, cast to `uint16` and append
to the output volume (`open(args.output, 'ab')`, which creates the file on
first use).  When the target bounds are Python `None` (`target = none`),
the first `scale` call raises a `TypeError` before any byte is appended. -/
def appendSlices (raw : Option (List ℚ)) (slices : List (List ℚ))
    (ilb iub : ℚ) (target : Option (ℚ × ℚ)) : AssembleOutcome :=
  match slices, target with
  | [], _ => .completed raw
  | _ :: _, none => .typeError raw
  | s :: rest, some (tlb, tub) =>
    appendSlices
      (some (raw.getD [] ++ s.map (fun v => castTo .uint16 (scale v ilb iub tlb tub))))
      rest ilb iub (some (tlb, tub))

/-- `process` from `rawtools/nsihdr.py`: if the output path exists as a file
and generation is not forced, log and `sys.exit(0)` leaving the file
untouched; if it exists and generation is forced, delete it first; then run
the append loop over the slice files. -/
def processRun (force : Bool) (existingRaw : Option (List ℚ))
    (slices : List (List ℚ)) (ilb iub : ℚ) (target : Option (ℚ × ℚ)) :
    AssembleOutcome :=
  match existingRaw with
  | some old =>
    if force then appendSlices none slices ilb iub target
    else .aborted (some old)
  | none => appendSlices none slices ilb iub target

/-- The module-level globals `TARGET_LOWER_BOUND` / `TARGET_UPPER_BOUND` of
`rawtools/nsihdr.py` as `process` reads them: initialised to `None` and
never reassigned at module scope, because the assignments in `main`
(lines 207–208) carry no `global` declaration and therefore bind
function-locals of `main` instead. -/
def TARGET_BOUNDS : Option (ℚ × ℚ) := none

/-- The target bounds `main` computes locally (nsihdr.py lines 207–208):
`0` and `2 ** bit_depth - 1`. -/
def mainTargetBounds (bit_depth : ℕ) : ℚ × ℚ := (0, 2 ^ bit_depth - 1)

end Rawtools

namespace Rawtools

theorem foldl_min_init (xs : List ℚ) : ∀ a b : ℚ,
    xs.foldl min (min a b) = min a (xs.foldl min b) := by
  induction xs with
  | nil => intro a b; simp
  | cons x xs ih =>
    intro a b
    simp only [List.foldl_cons]
    rw [min_assoc, ih a (min b x)]

theorem foldl_max_init (xs : List ℚ) : ∀ a b : ℚ,
    xs.foldl max (max a b) = max a (xs.foldl max b) := by
  induction xs with
  | nil => intro a b; simp
  | cons x xs ih =>
    intro a b
    simp only [List.foldl_cons]
    rw [max_assoc, ih a (max b x)]

theorem listMin_append (x y : ℚ) (xs ys : List ℚ) :
    listMin x (xs ++ y :: ys) = min (listMin x xs) (listMin y ys) := by
  unfold listMin
  rw [List.foldl_append, List.foldl_cons, foldl_min_init]

theorem listMax_append (x y : ℚ) (xs ys : List ℚ) :
    listMax x (xs ++ y :: ys) = max (listMax x xs) (listMax y ys) := by
  unfold listMax
  rw [List.foldl_append, List.foldl_cons, foldl_max_init]

theorem foldl_min_le_init (xs : List ℚ) : ∀ a : ℚ, xs.foldl min a ≤ a := by
  induction xs with
  | nil => intro a; simp
  | cons x xs ih =>
    intro a
    simp only [List.foldl_cons]
    exact le_trans (ih (min a x)) (min_le_left a x)

theorem le_foldl_max_init (xs : List ℚ) : ∀ a : ℚ, a ≤ xs.foldl max a := by
  induction xs with
  | nil => intro a; simp
  | cons x xs ih =>
    intro a
    simp only [List.foldl_cons]
    exact le_trans (le_max_left a x) (ih (max a x))

theorem listMin_mem (x : ℚ) (xs : List ℚ) : listMin x xs ∈ x :: xs := by
  induction xs generalizing x with
  | nil => simp [listMin]
  | cons y ys ih =>
    have h : listMin x (y :: ys) = listMin (min x y) ys := by
      simp [listMin]
    rw [h]
    have hm := List.mem_cons.mp (ih (min x y))
    rcases hm with hm | hm
    · rcases min_choice x y with hc | hc
      · rw [hm, hc]; exact List.mem_cons_self _ _
      · rw [hm, hc]; exact List.mem_cons_of_mem _ (List.mem_cons_self _ _)
    · exact List.mem_cons_of_mem _ (List.mem_cons_of_mem _ hm)

theorem listMax_mem (x : ℚ) (xs : List ℚ) : listMax x xs ∈ x :: xs := by
  induction xs generalizing x with
  | nil => simp [listMax]
  | cons y ys ih =>
    have h : listMax x (y :: ys) = listMax (max x y) ys := by
      simp [listMax]
    rw [h]
    have hm := List.mem_cons.mp (ih (max x y))
    rcases hm with hm | hm
    · rcases max_choice x y with hc | hc
      · rw [hm, hc]; exact List.mem_cons_self _ _
      · rw [hm, hc]; exact List.mem_cons_of_mem _ (List.mem_cons_self _ _)
    · exact List.mem_cons_of_mem _ (List.mem_cons_of_mem _ hm)

theorem listMin_le (x : ℚ) (xs : List ℚ) : ∀ v ∈ x :: xs, listMin x xs ≤ v := by
  induction xs generalizing x with
  | nil =>
    intro v hv
    rw [List.mem_singleton] at hv
    rw [hv]
    simp [listMin]
  | cons y ys ih =>
    intro v hv
    have h : listMin x (y :: ys) = listMin (min x y) ys := by
      simp [listMin]
    rw [h]
    have h1 : listMin (min x y) ys ≤ min x y := foldl_min_le_init ys (min x y)
    rcases List.mem_cons.mp hv with rfl | hv'
    · exact le_trans h1 (min_le_left _ _)
    · rcases List.mem_cons.mp hv' with rfl | hv''
      · exact le_trans h1 (min_le_right _ _)
      · exact ih (min x y) v (List.mem_cons_of_mem _ hv'')

theorem le_listMax (x : ℚ) (xs : List ℚ) : ∀ v ∈ x :: xs, v ≤ listMax x xs := by
  induction xs generalizing x with
  | nil =>
    intro v hv
    rw [List.mem_singleton] at hv
    rw [hv]
    simp [listMax]
  | cons y ys ih =>
    intro v hv
    have h : listMax x (y :: ys) = listMax (max x y) ys := by
      simp [listMax]
    rw [h]
    have h1 : max x y ≤ listMax (max x y) ys := le_foldl_max_init ys (max x y)
    rcases List.mem_cons.mp hv with rfl | hv'
    · exact le_trans (le_max_left _ _) h1
    · rcases List.mem_cons.mp hv' with rfl | hv''
      · exact le_trans (le_max_right _ _) h1
      · exact ih (max x y) v (List.mem_cons_of_mem _ hv'')

theorem ite_lt_eq_min (a b : ℚ) : (if a < b then a else b) = min a b := by
  by_cases h : a < b
  · rw [if_pos h, min_eq_left (le_of_lt h)]
  · rw [if_neg h, min_eq_right (le_of_not_lt h)]

theorem ite_lt_eq_max (a b : ℚ) : (if a < b then b else a) = max b a := by
  by_cases h : a < b
  · rw [if_pos h, max_eq_left (le_of_lt h)]
  · rw [if_neg h, max_eq_right (le_of_not_lt h)]

theorem scanChunks_spec (n : ℕ) (hn : 0 < n) :
    ∀ (k : ℕ) (l : List ℚ), l.length ≤ k → ∀ (mn mx : ℚ), l ≠ [] →
    scanChunks n l mn mx = (min (minOf l) mn, max (maxOf l) mx) := by
  intro k
  induction k with
  | zero =>
    intro l hk mn mx hne
    cases l with
    | nil => exact absurd rfl hne
    | cons x xs => simp at hk
  | succ k ih =>
    intro l hk mn mx hne
    cases l with
    | nil => exact absurd rfl hne
    | cons x xs =>
      simp only [scanChunks, if_neg (Nat.pos_iff_ne_zero.mp hn)]
      rw [ite_lt_eq_min, ite_lt_eq_max]
      by_cases hr : xs.drop (n - 1) = []
      · have htake : xs.take (n - 1) = xs :=
          List.take_of_length_le (by
            have := List.drop_eq_nil_iff.mp hr
            omega)
        rw [hr, htake]
        simp only [scanChunks, minOf, maxOf]
      · obtain ⟨y, ys, hys⟩ := List.exists_cons_of_ne_nil hr
        have hlen : (xs.drop (n - 1)).length ≤ k := by
          simp only [List.length_drop]
          simp only [List.length_cons] at hk
          omega
        rw [ih (xs.drop (n - 1)) hlen _ _ hr]
        have hsplit : xs = xs.take (n - 1) ++ y :: ys := by
          rw [← hys, List.take_append_drop]
        have hmin : minOf (x :: xs) =
            min (listMin x (xs.take (n - 1))) (minOf (xs.drop (n - 1))) := by
          simp only [minOf, hys]
          conv_lhs => rw [hsplit]
          rw [listMin_append]
        have hmax : maxOf (x :: xs) =
            max (listMax x (xs.take (n - 1))) (maxOf (xs.drop (n - 1))) := by
          simp only [maxOf, hys]
          conv_lhs => rw [hsplit]
          rw [listMax_append]
        rw [hmin, hmax]
        rw [Prod.mk.injEq]
        constructor
        · rw [min_assoc]
          exact min_left_comm _ _ _
        · rw [max_assoc]
          exact max_left_comm _ _ _

/-- Claim C1: for every input range `[a,b]` with `a < b` and every output
range `[c,d]`, the rescale function maps the input endpoints exactly to the
output endpoints: `scale a a b c d = c` and `scale b a b c d = d`. -/
theorem scale_endpoint_exact (a b c d : ℚ) (hab : a < b) :
    scale a a b c d = c ∧ scale b a b c d = d := by
  have hba : b - a ≠ 0 := sub_ne_zero.mpr (ne_of_gt hab)
  constructor
  · simp [scale]
  · unfold scale
    rw [div_self hba]
    ring

/-- Witness for C1 at the concrete ranges `[0,2]` and `[5,9]`. -/
theorem scale_endpoint_exact_witness :
    scale 0 0 2 5 9 = 5 ∧ scale 2 0 2 5 9 = 9 :=
  scale_endpoint_exact 0 2 5 9 (by norm_num)

/-- Claim C10: over exact arithmetic, for `a < b` the rescale function is
monotone in its first argument whenever `c ≤ d`, and strictly increasing
whenever `c < d`; rescaling preserves the ordering of sample values. -/
theorem scale_monotone (a b c d x y : ℚ) (hab : a < b) :
    (c ≤ d → x ≤ y → scale x a b c d ≤ scale y a b c d) ∧
    (c < d → x < y → scale x a b c d < scale y a b c d) := by
  have hba : (0 : ℚ) < b - a := sub_pos.mpr hab
  constructor
  · intro hcd hxy
    unfold scale
    have h1 : (x - a) / (b - a) ≤ (y - a) / (b - a) :=
      (div_le_div_iff_of_pos_right hba).mpr (by linarith)
    have h2 : (x - a) / (b - a) * (d - c) ≤ (y - a) / (b - a) * (d - c) :=
      mul_le_mul_of_nonneg_right h1 (by linarith)
    linarith
  · intro hcd hxy
    unfold scale
    have h1 : (x - a) / (b - a) < (y - a) / (b - a) :=
      (div_lt_div_iff_of_pos_right hba).mpr (by linarith)
    have h2 : (x - a) / (b - a) * (d - c) < (y - a) / (b - a) * (d - c) :=
      mul_lt_mul_of_pos_right h1 (by linarith)
    linarith

/-- Witness for C10 at `[a,b] = [0,2]`, `[c,d] = [5,9]`, `x = 0`, `y = 1`. -/
theorem scale_monotone_witness :
    scale 0 0 2 5 9 ≤ scale 1 0 2 5 9 ∧ scale 0 0 2 5 9 < scale 1 0 2 5 9 := by
  have h := scale_monotone 0 2 5 9 0 1 (by norm_num)
  exact ⟨h.1 (by norm_num) (by norm_num), h.2 (by norm_num) (by norm_num)⟩


/-- Claim C3: for every non-empty stream of float32 samples (modelled as
rationals within the finite float32 domain) and any two positive chunk
sizes (in samples, i.e. positive multiples of the 4-byte width divided by
4), `find_float_range` returns the same `(minimum, maximum)` pair, equal to
the global minimum and maximum over all samples; in particular chunk sizes
`N` and `2 * N` give identical results. -/
theorem find_float_range_spec (l : List ℚ) (n₁ n₂ : ℕ)
    (hne : l ≠ []) (h1 : 0 < n₁) (h2 : 0 < n₂)
    (hbound : ∀ v ∈ l, -FLOAT32_MAX ≤ v ∧ v ≤ FLOAT32_MAX) :
    find_float_range l n₁ = (minOf l, maxOf l) ∧
    find_float_range l n₁ = find_float_range l n₂ ∧
    minOf l ∈ l ∧ maxOf l ∈ l ∧
    (∀ v ∈ l, minOf l ≤ v ∧ v ≤ maxOf l) := by
  obtain ⟨x, xs, rfl⟩ := List.exists_cons_of_ne_nil hne
  have hminmem : minOf (x :: xs) ∈ x :: xs := listMin_mem x xs
  have hmaxmem : maxOf (x :: xs) ∈ x :: xs := listMax_mem x xs
  have key : ∀ n : ℕ, 0 < n →
      find_float_range (x :: xs) n = (minOf (x :: xs), maxOf (x :: xs)) := by
    intro n hn
    unfold find_float_range
    rw [scanChunks_spec n hn (x :: xs).length (x :: xs) le_rfl _ _ (by simp)]
    have hle : minOf (x :: xs) ≤ FLOAT32_MAX := (hbound _ hminmem).2
    have hge : -FLOAT32_MAX ≤ maxOf (x :: xs) := (hbound _ hmaxmem).1
    rw [min_eq_left hle, max_eq_left hge]
  refine ⟨key n₁ h1, ?_, hminmem, hmaxmem, ?_⟩
  · rw [key n₁ h1, key n₂ h2]
  · intro v hv
    exact ⟨listMin_le x xs v hv, le_listMax x xs v hv⟩

/-- Witness for C3 on the stream `[1, 2]` with chunk sizes `1` and `2`. -/
theorem find_float_range_spec_witness :
    find_float_range [(1 : ℚ), 2] 1 = (minOf [(1 : ℚ), 2], maxOf [(1 : ℚ), 2]) ∧
    find_float_range [(1 : ℚ), 2] 1 = find_float_range [(1 : ℚ), 2] 2 ∧
    minOf [(1 : ℚ), 2] ∈ [(1 : ℚ), 2] ∧ maxOf [(1 : ℚ), 2] ∈ [(1 : ℚ), 2] ∧
    (∀ v ∈ [(1 : ℚ), 2], minOf [(1 : ℚ), 2] ≤ v ∧ v ≤ maxOf [(1 : ℚ), 2]) :=
  find_float_range_spec [(1 : ℚ), 2] 1 2 (by simp) (by norm_num) (by norm_num)
    (by
      intro v hv
      rcases List.mem_cons.mp hv with rfl | hv'
      · norm_num [FLOAT32_MAX]
      · rcases List.mem_cons.mp hv' with rfl | hv''
        · norm_num [FLOAT32_MAX]
        · simp at hv'')

/-- Claim C8 counterexample: on the empty stream the scanner does not fail;
with chunk size `1` it returns the untouched sentinel initial values, a
pair whose first component exceeds its second, so it does return a
(degenerate) result rather than an `InvalidInput` failure. -/
theorem find_float_range_empty_counterexample :
    find_float_range [] 1 = (FLOAT32_MAX, -FLOAT32_MAX) ∧
    ¬ FLOAT32_MAX ≤ -FLOAT32_MAX := by
  constructor
  · simp [find_float_range, scanChunks]
  · norm_num [FLOAT32_MAX]

/-- Claim C8 amended: invoking the Range Scanner on a zero-length input does
not fail; for every chunk size it returns the initial sentinel pair,
`np.finfo('float32').max` in the minimum slot and `np.finfo('float32').min`
in the maximum slot — an inverted pair that spans no sample. -/
theorem find_float_range_empty (n : ℕ) :
    find_float_range [] n = (FLOAT32_MAX, -FLOAT32_MAX) := by
  simp [find_float_range, scanChunks]

/-- Claim C9 counterexample: for a 399-byte stream the default chunk size is
`399 // 100 = 3` bytes, strictly below one float32 encoding unit of 4
bytes; for a 99-byte stream it is `0`. -/
theorem defaultBufferSize_counterexample :
    defaultBufferSize 399 = 3 ∧ defaultBufferSize 399 < 4 ∧
    defaultBufferSize 99 = 0 := by
  refine ⟨rfl, ?_, rfl⟩
  decide

/-- Claim C9 amended: when no chunk size is supplied the scanner chooses
exactly `size // 100` bytes — roughly 1% of the total stream size — with no
lower bound: for any stream under 400 bytes the default is below one
float32 unit (4 bytes), and under 100 bytes it is zero. -/
theorem defaultBufferSize_spec (s : ℕ) :
    100 * defaultBufferSize s ≤ s ∧ s < 100 * defaultBufferSize s + 100 ∧
    (s < 400 → defaultBufferSize s < 4) ∧ (s < 100 → defaultBufferSize s = 0) := by
  unfold defaultBufferSize
  omega

/-- Witness for C9's amended claim at a 399-byte stream. -/
theorem defaultBufferSize_spec_witness :
    100 * defaultBufferSize 399 ≤ 399 ∧ 399 < 100 * defaultBufferSize 399 + 100 ∧
    (399 < 400 → defaultBufferSize 399 < 4) ∧
    (399 < 100 → defaultBufferSize 399 = 0) :=
  defaultBufferSize_spec 399

theorem chunkMap_eq_map (f : ℚ → ℚ) (n : ℕ) (hn : 0 < n) :
    ∀ (k : ℕ) (l : List ℚ), l.length ≤ k → chunkMap f n l = l.map f := by
  intro k
  induction k with
  | zero =>
    intro l hk
    cases l with
    | nil => simp [chunkMap]
    | cons x xs => simp at hk
  | succ k ih =>
    intro l hk
    cases l with
    | nil => simp [chunkMap]
    | cons x xs =>
      simp only [chunkMap, if_neg (Nat.pos_iff_ne_zero.mp hn)]
      have hlen : (xs.drop (n - 1)).length ≤ k := by
        simp only [List.length_drop]
        simp only [List.length_cons] at hk
        omega
      rw [ih (xs.drop (n - 1)) hlen, ← List.map_append]
      have hsplit : x :: xs.take (n - 1) ++ xs.drop (n - 1) = x :: xs := by
        rw [List.cons_append, List.take_append_drop]
      rw [hsplit]

theorem map_cast_map {F : ℚ → ℚ} {g : ℕ → ℚ} :
    ∀ (l : List ℕ), (∀ v ∈ l, F (v : ℚ) = g v) →
    (l.map (fun v : ℕ => (v : ℚ))).map F = l.map g := by
  intro l
  induction l with
  | nil => intro _; rfl
  | cons x xs ih =>
    intro h
    simp only [List.map_cons]
    rw [h x (List.mem_cons_self _ _), ih (fun v hv => h v (List.mem_cons_of_mem _ hv))]

theorem uint8_sample_to_uint16 (v : ℕ) (hv : v ≤ 255) :
    castTo .uint16 (scale (v : ℚ) 0 255 0 65535) = ((257 * v : ℕ) : ℚ) ∧
    ((round ((v : ℚ) / 255 * 65535) : ℤ) : ℚ) = ((257 * v : ℕ) : ℚ) := by
  have hs : scale (v : ℚ) 0 255 0 65535 = ((257 * v : ℕ) : ℚ) := by
    unfold scale
    push_cast
    field_simp
    ring
  have htr : ratTrunc ((257 * v : ℕ) : ℚ) = (257 * v : ℕ) := by
    unfold ratTrunc
    rw [if_pos (by positivity), Int.floor_natCast]
  constructor
  · show ((ratTrunc (scale (v : ℚ) 0 255 0 65535) % 65536 : ℤ) : ℚ) = _
    rw [hs, htr, Int.emod_eq_of_lt (by positivity) (by exact_mod_cast by omega)]
    norm_cast
  · have hq : (v : ℚ) / 255 * 65535 = ((257 * v : ℕ) : ℚ) := by
      push_cast
      field_simp
      ring
    rw [hq, round_natCast]
    norm_cast

/-- Claim C2: converting a `uint8` volume to `uint16` produces, in the same
position, the sample `round(v / 255 * 65535)` for every input sample `v`,
and the newly written DAT metadata reports format `uint16` with dimensions
and thickness identical to those of the source descriptor. -/
theorem convert_uint8_to_uint16 (d : Descriptor) (vs : List ℕ)
    (hn : 0 < d.xdim * d.ydim) (hv : ∀ v ∈ vs, v ≤ 255) :
    convert d .uint8 .uint16 false (vs.map (fun v : ℕ => (v : ℚ))) =
      .written (vs.map (fun v : ℕ => ((round ((v : ℚ) / 255 * 65535) : ℤ) : ℚ)))
        ⟨(d.xdim, d.ydim, d.zdim), (d.x_thickness, d.y_thickness, d.z_thickness),
          .uint16, d.model⟩ := by
  have hpt : ∀ v ∈ vs,
      castTo .uint16 (scale (v : ℚ)
        (inputRange .uint8 (vs.map (fun v : ℕ => (v : ℚ))) (d.xdim * d.ydim)).1
        (inputRange .uint8 (vs.map (fun v : ℕ => (v : ℚ))) (d.xdim * d.ydim)).2
        (naturalRange .uint16).1 (naturalRange .uint16).2) =
      ((round ((v : ℚ) / 255 * 65535) : ℤ) : ℚ) := by
    intro v hvm
    have h := uint8_sample_to_uint16 v (hv v hvm)
    exact h.1.trans h.2.symm
  unfold convert
  rw [if_neg (by simp), if_neg (by simp)]
  rw [chunkMap_eq_map _ _ hn (vs.map (fun v : ℕ => (v : ℚ))).length _ le_rfl]
  rw [map_cast_map vs hpt]

/-- Witness for C2: a `1x2x1` descriptor and the samples `0, 128, 255`. -/
theorem convert_uint8_to_uint16_witness :
    convert ⟨1, 2, 1, 1, 1, 1, "DENSITY"⟩ .uint8 .uint16 false
        ([0, 128, 255].map (fun v : ℕ => (v : ℚ))) =
      .written ([0, 128, 255].map
          (fun v : ℕ => ((round ((v : ℚ) / 255 * 65535) : ℤ) : ℚ)))
        ⟨(1, 2, 1), (1, 1, 1), .uint16, "DENSITY"⟩ :=
  convert_uint8_to_uint16 ⟨1, 2, 1, 1, 1, 1, "DENSITY"⟩ [0, 128, 255]
    (by norm_num) (by decide)

/-- Claim C4: when the inferred current encoding equals the requested
target encoding, `convert` returns at once with the no-op outcome
`skippedSameFormat` (not an error), and the on-disk state — output volume
and DAT files alike — is left exactly as it was. -/
theorem convert_same_format_noop (d : Descriptor) (bd ff : Encoding)
    (ex : Bool) (data : List ℚ) (rawOut : Option (List ℚ))
    (datOut : Option DatFile) (h : ff = bd) :
    convert d bd ff ex data = .skippedSameFormat ∧
    convertFS d bd ff data rawOut datOut = (rawOut, datOut) := by
  subst h
  constructor
  · simp [convert]
  · simp [convertFS, convert]

/-- Witness for C4 with target encoding equal to the current `uint8`. -/
theorem convert_same_format_noop_witness :
    convert ⟨1, 1, 1, 1, 1, 1, "DENSITY"⟩ .uint8 .uint8 false [] =
      .skippedSameFormat ∧
    convertFS ⟨1, 1, 1, 1, 1, 1, "DENSITY"⟩ .uint8 .uint8 [] none none =
      (none, none) :=
  convert_same_format_noop ⟨1, 1, 1, 1, 1, 1, "DENSITY"⟩ .uint8 .uint8 false []
    none none rfl

/-- Claim C5: if the computed output path already exists, `convert` returns
without writing and without error, leaving the existing output bytes (and
any existing DAT file) unchanged; consequently running `convert` twice with
the same source and target leaves the state after the second run identical
to the state after the first. -/
theorem convert_never_clobber (d : Descriptor) (bd ff : Encoding)
    (data : List ℚ) (old : List ℚ) (datOut : Option DatFile) :
    convertFS d bd ff data (some old) datOut = (some old, datOut) ∧
    convertFS d bd ff data (convertFS d bd ff data none none).1
        (convertFS d bd ff data none none).2 =
      convertFS d bd ff data none none := by
  by_cases h : ff = bd
  · subst h
    refine ⟨by simp [convertFS, convert], by simp [convertFS, convert]⟩
  · constructor
    · simp [convertFS, convert, h]
    · simp [convertFS, convert, h]

/-- Claim C6 evaluation at the failing code path: because the assignments
to `TARGET_LOWER_BOUND` / `TARGET_UPPER_BOUND` in `main` lack a `global`
declaration, `process` reads the module-level `None` values, and on any
project with at least one slice file the first `scale` call raises a
`TypeError` before a single rescaled sample is written; the module-level
bounds never equal the `[0, 2 ** bit_depth - 1]` range `main` computes. -/
theorem process_target_bounds_bug (force : Bool) (s : List ℚ)
    (rest : List (List ℚ)) (ilb iub : ℚ) :
    processRun force none (s :: rest) ilb iub TARGET_BOUNDS =
      .typeError none ∧
    ∀ bit_depth : ℕ, TARGET_BOUNDS ≠ some (mainTargetBounds bit_depth) := by
  constructor
  · rfl
  · intro bit_depth
    simp [TARGET_BOUNDS]

/-- Claim C7: if the output path exists as a file and the force flag is
unset, `process` aborts before touching any slice and the existing bytes
survive unchanged; if the force flag is set, the existing file is deleted
before the first append, so the outcome is the same as if no prior output
had existed — no byte of a prior run survives. -/
theorem process_exists_policy (old : List ℚ) (slices : List (List ℚ))
    (ilb iub : ℚ) (target : Option (ℚ × ℚ)) :
    processRun false (some old) slices ilb iub target = .aborted (some old) ∧
    processRun true (some old) slices ilb iub target =
      processRun true none slices ilb iub target := by
  exact ⟨rfl, rfl⟩

end Rawtools
